import Mathlib

/-!
Verification of the Moore-Hodgson scheduling routine (`moore_hodgson` in
`src/lib.rs`).  The Rust function operates in place on a mutable slice of
`(payload, due_time, processing_time)` triples; we model the slice as a
`List (T × D × P)` threaded through the computation, and the generic trait
bounds (`D : PartialOrd`, `P : Add + Default + PartialOrd<D>`) as explicit
Boolean comparison functions `lt : D → D → Bool` and `le : P → D → Bool`
together with `add : P → P → P` and a default element `dflt : P`.  A partial
order with incomparable elements (such as `f32` with NaN) is captured by a
`lt`/`le` that return `false` on incomparable pairs.
-/

namespace MooreHodgson

/-- Rust's `items.swap(i, j)`: exchange the elements at positions `i` and `j`.
In the algorithm both indices are always in bounds; if one is not, we return
the list unchanged (in Rust that indexing would panic, which is unreachable
from the entry state). -/
def swapIdx {α : Type _} (l : List α) (i j : Nat) : List α :=
  match l[i]?, l[j]?  with
  | some a, some b => (l.set i b).set j a
  | _, _ => l

/-- The minimum-due-time scan of the main loop (`lib.rs` lines 67-79):
starting from the accumulator `(min_index, min_due_time, min_processing_time)`
initialised with the entry at `start`, the loop `for i in (start+1)..stop`
replaces the accumulator exactly when `due_time < min_due_time` holds as a
`true` comparison.  Ties and incomparable pairs leave the accumulator
unchanged, matching `PartialOrd`.  `scanStep` is the body of that `for` loop,
as a fold step over the scanned index `i`. -/
def scanStep (lt : D → D → Bool) (items : List (T × D × P))
    (acc : Nat × D × P) (i : Nat) : Nat × D × P :=
  match items[i]? with
  | some x => if lt x.2.1 acc.2.1 then (i, x.2.1, x.2.2) else acc
  | none => acc

/-- The whole scan `for i in (start+1)..stop` of `lib.rs` lines 71-79,
folding `scanStep` left to right over the index range. -/
def findMin (lt : D → D → Bool) (items : List (T × D × P)) (start stop : Nat)
    (acc : Nat × D × P) : Nat × D × P :=
  (List.range' (start + 1) (stop - (start + 1))).foldl (scanStep lt items) acc

/-- The `while on_time_items_end != late_items_start` loop of `moore_hodgson`
(`lib.rs` lines 66-92).  The state is
`(items, on_time_items_end, late_items_start, completion_time)`.
`fuel` bounds the number of iterations: each iteration either increments
`on_time_items_end` or decrements `late_items_start`, so from the entry state
`items.length + 1` units of fuel always suffice (proved below).  The `none`
branch of the candidate lookup is unreachable from the entry state, where
`on_time_items_end < late_items_start ≤ items.length` holds at every
iteration. -/
def mhGo (lt : D → D → Bool) (le : P → D → Bool) (add : P → P → P) :
    Nat → List (T × D × P) → Nat → Nat → P → List (T × D × P) × Nat × Nat × P
  | 0, items, onEnd, lateStart, c => (items, onEnd, lateStart, c)
  | fuel + 1, items, onEnd, lateStart, c =>
    if onEnd = lateStart then (items, onEnd, lateStart, c)
    else
      match items[onEnd]? with
      | none => (items, onEnd, lateStart, c)
      | some j =>
        let m := findMin lt items onEnd lateStart (onEnd, j.2.1, j.2.2)
        let endTime := add c m.2.2
        if le endTime m.2.1 then
          mhGo lt le add fuel (swapIdx items m.1 onEnd) (onEnd + 1) lateStart endTime
        else
          mhGo lt le add fuel (swapIdx items m.1 (lateStart - 1)) onEnd (lateStart - 1) c

/-- `moore_hodgson` (`lib.rs` lines 55-95): run the loop from
`on_time_items_end = 0`, `late_items_start = items.len()`,
`completion_time = P::default()`, and return the rearranged items together
with `on_time_items_end`, the number of on-time items. -/
def moore_hodgson (lt : D → D → Bool) (le : P → D → Bool) (add : P → P → P)
    (dflt : P) (items : List (T × D × P)) : List (T × D × P) × Nat :=
  let s := mhGo lt le add (items.length + 1) items 0 items.length dflt
  (s.1, s.2.1)

/-- Instantiation of the due-time strict comparison at `D = Nat`
(a total order, as with the integer due times of the library's example). -/
def natLt (a b : Nat) : Bool := decide (a < b)

/-- Instantiation of the cross-domain `P: PartialOrd<D>` comparison
`completion_time <= due_time` at `P = D = Nat`. -/
def natLe (p d : Nat) : Bool := decide (p ≤ d)

/-- Strict comparison on a due-time domain with an incomparable element,
modelling `f32` due times restricted to `{NaN} ∪ ℕ`: `none` plays the role
of NaN, and any comparison involving it is `false`, as for `f32::NAN` under
`PartialOrd`. -/
def fLt : Option Nat → Option Nat → Bool
  | Option.some a, Option.some b => decide (a < b)
  | _, _ => false

/-- `completion_time <= due_time` against `Option Nat` due times: `false`
whenever the due time is the incomparable element `none`, as for
`f32::NAN`. -/
def fLe : Nat → Option Nat → Bool
  | p, Option.some d => decide (p ≤ d)
  | _, Option.none => false

/-- Spec-side checker for the "on-time feasibility" property (§8 of the
spec): scanning the list left to right with accumulated completion time `c`,
every job's completion time `c + processing_time` satisfies the Boolean
`le` comparison against that job's own due time. -/
def feasibleFrom (le : P → D → Bool) (add : P → P → P) :
    P → List (T × D × P) → Bool
  | _, [] => true
  | c, j :: rest => le (add c j.2.2) j.2.1 && feasibleFrom le add (add c j.2.2) rest

/-- Accumulated completion time of a list of jobs processed left to right
starting from clock value `c`: the left fold of `add` over the processing
times, exactly how `completion_time` is built in the loop. -/
def accumFrom (add : P → P → P) : P → List (T × D × P) → P
  | c, [] => c
  | c, j :: rest => accumFrom add (add c j.2.2) rest

/-- The documented example of `lib.rs` (lines 13-19); payloads are the
initials of the five job names. -/
def exampleJobs : List (Char × Nat × Nat) :=
  [('A', 6, 5), ('B', 7, 1), ('C', 4, 1), ('D', 6, 4), ('E', 8, 3)]

/-- Three jobs whose due times are all the incomparable element (all NaN). -/
def nanJobs : List (Nat × Option Nat × Nat) :=
  [(1, Option.none, 3), (2, Option.none, 1), (3, Option.none, 2)]

/-- A three-job sequence for the scan-tie-break analysis: a comparable due
time `5`, then an incomparable one, then a comparable due time `3 < 5`. -/
def scanJobs : List (Nat × Option Nat × Nat) :=
  [(0, Option.some 5, 0), (1, Option.none, 0), (2, Option.some 3, 0)]

/-- Modelled from the claim's words: position `i` of the scanned region
(ending at `stop`) is such that no later-scanned job's due time compares
strictly less than the due time of the job at `i`. -/
def noLaterLessB (lt : D → D → Bool) (items : List (T × D × P))
    (stop i : Nat) : Bool :=
  (List.range' (i + 1) (stop - (i + 1))).all fun k =>
    match items[i]?, items[k]? with
    | some x, some y => !lt y.2.1 x.2.1
    | _, _ => true

/-! ### Basic facts about `swapIdx` -/

theorem length_swapIdx {α : Type _} (l : List α) (i j : Nat) :
    (swapIdx l i j).length = l.length := by
  unfold swapIdx; split <;> simp

theorem getElem?_swapIdx_of_ne {α : Type _} (l : List α) (i j k : Nat)
    (hki : k ≠ i) (hkj : k ≠ j) : (swapIdx l i j)[k]? = l[k]? := by
  unfold swapIdx; split
  · rw [List.getElem?_set_ne (Ne.symm hkj), List.getElem?_set_ne (Ne.symm hki)]
  · rfl

theorem getElem?_swapIdx_snd {α : Type _} (l : List α) {i j : Nat} {a b : α}
    (hi : l[i]? = some a) (hj : l[j]? = some b) : (swapIdx l i j)[j]? = some a := by
  have hjl : j < l.length := (List.getElem?_eq_some_iff.mp hj).1
  unfold swapIdx; rw [hi, hj]
  exact List.getElem?_set_self (by simpa using hjl)

theorem getElem?_swapIdx_fst {α : Type _} (l : List α) {i j : Nat} {a b : α}
    (hi : l[i]? = some a) (hj : l[j]? = some b) : (swapIdx l i j)[i]? = some b := by
  have hil : i < l.length := (List.getElem?_eq_some_iff.mp hi).1
  by_cases hij : i = j
  · subst hij
    have hab : a = b := by rw [hi] at hj; injection hj
    subst hab
    unfold swapIdx; rw [hi]
    show ((l.set i a).set i a)[i]? = some a
    rw [List.set_set]
    exact List.getElem?_set_self hil
  · unfold swapIdx; rw [hi, hj]
    show ((l.set i b).set j a)[i]? = some b
    rw [List.getElem?_set_ne (fun h => hij h.symm)]
    exact List.getElem?_set_self hil

theorem take_swapIdx_of_le {α : Type _} (l : List α) (i j k : Nat)
    (hki : k ≤ i) (hkj : k ≤ j) : (swapIdx l i j).take k = l.take k := by
  apply List.ext_getElem?
  intro n
  by_cases hn : n < k
  · rw [List.getElem?_take_of_lt hn, List.getElem?_take_of_lt hn,
      getElem?_swapIdx_of_ne l i j n (by omega) (by omega)]
  · rw [List.getElem?_eq_none, List.getElem?_eq_none] <;>
      simp [List.length_take, length_swapIdx] <;> omega

/-- Inserting `a` at position `m` (where `b` currently sits) and carrying `b`
to the front is a permutation of carrying `a` to the front. -/
theorem cons_perm_set {α : Type _} :
    ∀ (l : List α) (m : Nat) (a b : α), l[m]? = some b →
      List.Perm (a :: l) (b :: l.set m a)
  | [], m, a, b, h => by simp at h
  | c :: t, 0, a, b, h => by
    have hbc : c = b := by simpa using h
    subst hbc
    exact List.Perm.swap c a t
  | c :: t, m + 1, a, b, h => by
    have ih := cons_perm_set t m a b (by simpa using h)
    exact ((List.Perm.swap c a t).trans (List.Perm.cons c ih)).trans
      (List.Perm.swap b c (t.set m a))

theorem swapIdx_perm {α : Type _} (l : List α) (i j : Nat) :
    List.Perm (swapIdx l i j) l := by
  unfold swapIdx
  split
  case _ a b hi hj =>
    have hjl : j < l.length := (List.getElem?_eq_some_iff.mp hj).1
    have hset : (l.set i b)[j]? = some b := by
      by_cases hij : i = j
      · subst hij; exact List.getElem?_set_self hjl
      · rw [List.getElem?_set_ne hij]; exact hj
    have h1 : List.Perm (b :: l) (a :: l.set i b) := cons_perm_set l i b a hi
    have h2 : List.Perm (a :: l.set i b) (b :: (l.set i b).set j a) :=
      cons_perm_set (l.set i b) j a b hset
    exact List.Perm.cons_inv (h2.symm.trans h1.symm)
  case _ => exact List.Perm.refl l

/-! ### The minimum-due-time scan -/

/-- The fold invariant of the scan: the accumulator stays within
`[start, s)`, its due/processing components are read off the item at its
index, and no strictly smaller due time was seen at any index after the
accumulator's. -/
theorem scanStep_inv (lt : D → D → Bool) (items : List (T × D × P))
    (start s : Nat) (acc : Nat × D × P)
    (h1 : start ≤ acc.1) (h2 : acc.1 < s)
    (h3 : ∃ t, items[acc.1]? = some (t, acc.2.1, acc.2.2))
    (h4 : ∀ i x, acc.1 < i → i < s → items[i]? = some x →
      lt x.2.1 acc.2.1 = false) :
    start ≤ (scanStep lt items acc s).1 ∧ (scanStep lt items acc s).1 < s + 1 ∧
      (∃ t, items[(scanStep lt items acc s).1]? =
        some (t, (scanStep lt items acc s).2.1, (scanStep lt items acc s).2.2)) ∧
      (∀ i x, (scanStep lt items acc s).1 < i → i < s + 1 → items[i]? = some x →
        lt x.2.1 (scanStep lt items acc s).2.1 = false) := by
  unfold scanStep
  match hx : items[s]? with
  | none =>
    refine ⟨h1, Nat.lt_succ_of_lt h2, h3, ?_⟩
    intro i x hi his hsome
    rcases Nat.lt_succ_iff_lt_or_eq.mp his with h | h
    · exact h4 i x hi h hsome
    · subst h; rw [hx] at hsome; cases hsome
  | some x =>
    dsimp only
    by_cases hlt : lt x.2.1 acc.2.1 = true
    · rw [if_pos hlt]
      refine ⟨Nat.le_of_lt (Nat.lt_of_le_of_lt h1 h2), Nat.lt_succ_self s,
        ⟨x.1, by rw [hx]⟩, ?_⟩
      intro i y hi his _
      omega
    · rw [if_neg hlt]
      refine ⟨h1, Nat.lt_succ_of_lt h2, h3, ?_⟩
      intro i y hi his hsome
      rcases Nat.lt_succ_iff_lt_or_eq.mp his with h | h
      · exact h4 i y hi h hsome
      · subst h; rw [hx] at hsome
        cases hsome
        simpa using hlt

theorem foldMin_inv (lt : D → D → Bool) (items : List (T × D × P)) (start : Nat) :
    ∀ (n s : Nat) (acc : Nat × D × P),
      start ≤ acc.1 → acc.1 < s →
      (∃ t, items[acc.1]? = some (t, acc.2.1, acc.2.2)) →
      (∀ i x, acc.1 < i → i < s → items[i]? = some x → lt x.2.1 acc.2.1 = false) →
      start ≤ ((List.range' s n).foldl (scanStep lt items) acc).1 ∧
      ((List.range' s n).foldl (scanStep lt items) acc).1 < s + n ∧
      (∃ t, items[((List.range' s n).foldl (scanStep lt items) acc).1]? =
        some (t, ((List.range' s n).foldl (scanStep lt items) acc).2.1,
          ((List.range' s n).foldl (scanStep lt items) acc).2.2)) ∧
      (∀ i x, ((List.range' s n).foldl (scanStep lt items) acc).1 < i →
        i < s + n → items[i]? = some x →
        lt x.2.1 ((List.range' s n).foldl (scanStep lt items) acc).2.1 = false) := by
  intro n
  induction n with
  | zero =>
    intro s acc h1 h2 h3 h4
    exact ⟨h1, by simpa using h2, by simpa using h3, by simpa using h4⟩
  | succ n ih =>
    intro s acc h1 h2 h3 h4
    rw [List.range'_succ, List.foldl_cons]
    obtain ⟨k1, k2, k3, k4⟩ := scanStep_inv lt items start s acc h1 h2 h3 h4
    have := ih (s + 1) _ k1 k2 k3 k4
    refine ⟨this.1, by omega, this.2.2.1, ?_⟩
    intro i x hi his hsome
    exact this.2.2.2 i x hi (by omega) hsome

/-- Specification of the candidate scan: starting from the entry at `start`,
the selected index lies in `[start, stop)`, the selected due/processing
times are the ones stored at the selected index, and no strictly smaller
due time sits at any later index of the scanned region. -/
theorem findMin_spec (lt : D → D → Bool) (items : List (T × D × P))
    (start stop : Nat) (j : T × D × P)
    (hj : items[start]? = some j) (hs : start < stop) :
    start ≤ (findMin lt items start stop (start, j.2.1, j.2.2)).1 ∧
    (findMin lt items start stop (start, j.2.1, j.2.2)).1 < stop ∧
    (∃ t, items[(findMin lt items start stop (start, j.2.1, j.2.2)).1]? =
      some (t, (findMin lt items start stop (start, j.2.1, j.2.2)).2.1,
        (findMin lt items start stop (start, j.2.1, j.2.2)).2.2)) ∧
    (∀ i x, (findMin lt items start stop (start, j.2.1, j.2.2)).1 < i →
      i < stop → items[i]? = some x →
      lt x.2.1 (findMin lt items start stop (start, j.2.1, j.2.2)).2.1 = false) := by
  have harith : start + 1 + (stop - (start + 1)) = stop := by omega
  have h := foldMin_inv lt items start (stop - (start + 1)) (start + 1)
    (start, j.2.1, j.2.2) (Nat.le_refl _) (Nat.lt_succ_self _)
    ⟨j.1, hj⟩ (by intro i x hi his hx; omega)
  rw [harith] at h
  exact h

/-- If no scanned entry compares strictly below the accumulator's due time,
the scan leaves the accumulator unchanged. -/
theorem foldMin_const (lt : D → D → Bool) (items : List (T × D × P)) :
    ∀ (n s : Nat) (acc : Nat × D × P),
      (∀ i x, s ≤ i → i < s + n → items[i]? = some x →
        lt x.2.1 acc.2.1 = false) →
      (List.range' s n).foldl (scanStep lt items) acc = acc := by
  intro n
  induction n with
  | zero => intro s acc _; rfl
  | succ n ih =>
    intro s acc h
    rw [List.range'_succ, List.foldl_cons]
    have hstep : scanStep lt items acc s = acc := by
      unfold scanStep
      match hx : items[s]? with
      | none => rfl
      | some x =>
        dsimp only
        rw [if_neg]
        simp [h s x (Nat.le_refl _) (by omega) hx]
    rw [hstep]
    exact ih (s + 1) acc (fun i x h1 h2 hx => h i x (by omega) (by omega) hx)

theorem findMin_const (lt : D → D → Bool) (items : List (T × D × P))
    (start stop : Nat) (acc : Nat × D × P)
    (h : ∀ i x, start < i → i < stop → items[i]? = some x →
      lt x.2.1 acc.2.1 = false) :
    findMin lt items start stop acc = acc :=
  foldMin_const lt items (stop - (start + 1)) (start + 1) acc
    (fun i x h1 h2 hx => h i x (by omega) (by omega) hx)

/-! ### Loop invariants of `mhGo` -/

/-- The boundary indices stay ordered and within the preserved length. -/
theorem mhGo_bounds (lt : D → D → Bool) (le : P → D → Bool) (add : P → P → P) :
    ∀ (fuel : Nat) (items : List (T × D × P)) (onEnd lateStart : Nat) (c : P),
      onEnd ≤ lateStart → lateStart ≤ items.length →
      onEnd ≤ (mhGo lt le add fuel items onEnd lateStart c).2.1 ∧
      (mhGo lt le add fuel items onEnd lateStart c).2.1 ≤
        (mhGo lt le add fuel items onEnd lateStart c).2.2.1 ∧
      (mhGo lt le add fuel items onEnd lateStart c).2.2.1 ≤ lateStart ∧
      (mhGo lt le add fuel items onEnd lateStart c).1.length = items.length := by
  intro fuel
  induction fuel with
  | zero => intro items onEnd lateStart c h1 _; exact ⟨Nat.le_refl _, h1, Nat.le_refl _, rfl⟩
  | succ n ih =>
    intro items onEnd lateStart c h1 h2
    rw [mhGo]
    split
    · exact ⟨Nat.le_refl _, h1, Nat.le_refl _, rfl⟩
    case isFalse hne =>
      split
      · exact ⟨Nat.le_refl _, h1, Nat.le_refl _, rfl⟩
      case _ j hj =>
        dsimp only
        have hol : onEnd < lateStart := Nat.lt_of_le_of_ne h1 hne
        split
        · have h := ih (swapIdx items
              (findMin lt items onEnd lateStart (onEnd, j.2.1, j.2.2)).1 onEnd)
              (onEnd + 1) lateStart
              (add c (findMin lt items onEnd lateStart (onEnd, j.2.1, j.2.2)).2.2)
              hol (by rw [length_swapIdx]; exact h2)
          refine ⟨by omega, h.2.1, h.2.2.1, h.2.2.2.trans (length_swapIdx _ _ _)⟩
        · have h := ih (swapIdx items
              (findMin lt items onEnd lateStart (onEnd, j.2.1, j.2.2)).1
              (lateStart - 1)) onEnd (lateStart - 1) c
              (by omega) (by rw [length_swapIdx]; omega)
          exact ⟨h.1, h.2.1, by omega, h.2.2.2.trans (length_swapIdx _ _ _)⟩

/-- One unit of fuel per iteration is exact: as long as the fuel is at least
`late_items_start - on_time_items_end` (the number of remaining iterations),
adding more fuel does not change the result. -/
theorem mhGo_fuel_succ (lt : D → D → Bool) (le : P → D → Bool) (add : P → P → P) :
    ∀ (fuel : Nat) (items : List (T × D × P)) (onEnd lateStart : Nat) (c : P),
      onEnd ≤ lateStart → lateStart - onEnd ≤ fuel →
      mhGo lt le add (fuel + 1) items onEnd lateStart c =
        mhGo lt le add fuel items onEnd lateStart c := by
  intro fuel
  induction fuel with
  | zero =>
    intro items onEnd lateStart c h1 h2
    have heq : onEnd = lateStart := by omega
    rw [mhGo, mhGo, if_pos heq]
  | succ n ih =>
    intro items onEnd lateStart c h1 h2
    rw [mhGo, mhGo]
    by_cases heq : onEnd = lateStart
    · rw [if_pos heq, if_pos heq]
    · rw [if_neg heq, if_neg heq]
      match hx : items[onEnd]? with
      | none => rfl
      | some j =>
        dsimp only
        by_cases hle : le (add c (findMin lt items onEnd lateStart
            (onEnd, j.2.1, j.2.2)).2.2) (findMin lt items onEnd lateStart
            (onEnd, j.2.1, j.2.2)).2.1 = true
        · rw [if_pos hle, if_pos hle]
          exact ih _ _ _ _ (by omega) (by omega)
        · rw [if_neg hle, if_neg hle]
          exact ih _ _ _ _ (by omega) (by omega)

/-- Fuel irrelevance: any fuel at least the remaining iteration count
computes the same final state as the exact count. -/
theorem mhGo_fuel_of_le (lt : D → D → Bool) (le : P → D → Bool) (add : P → P → P) :
    ∀ (fuel : Nat) (items : List (T × D × P)) (onEnd lateStart : Nat) (c : P),
      onEnd ≤ lateStart → lateStart - onEnd ≤ fuel →
      mhGo lt le add fuel items onEnd lateStart c =
        mhGo lt le add (lateStart - onEnd) items onEnd lateStart c := by
  intro fuel
  induction fuel with
  | zero =>
    intro items onEnd lateStart c h1 h2
    have heq : lateStart - onEnd = 0 := by omega
    rw [heq]
  | succ n ih =>
    intro items onEnd lateStart c h1 h2
    by_cases hd : lateStart - onEnd ≤ n
    · rw [mhGo_fuel_succ lt le add n items onEnd lateStart c h1 hd]
      exact ih items onEnd lateStart c h1 hd
    · have heq : lateStart - onEnd = n + 1 := by omega
      rw [heq]

/-- Termination: with sufficient fuel the loop really finishes, i.e. the
final state satisfies `on_time_items_end = late_items_start`. -/
theorem mhGo_final (lt : D → D → Bool) (le : P → D → Bool) (add : P → P → P) :
    ∀ (fuel : Nat) (items : List (T × D × P)) (onEnd lateStart : Nat) (c : P),
      onEnd ≤ lateStart → lateStart ≤ items.length → lateStart - onEnd ≤ fuel →
      (mhGo lt le add fuel items onEnd lateStart c).2.1 =
        (mhGo lt le add fuel items onEnd lateStart c).2.2.1 := by
  intro fuel
  induction fuel with
  | zero =>
    intro items onEnd lateStart c h1 _ h3
    exact (by omega : onEnd = lateStart)
  | succ n ih =>
    intro items onEnd lateStart c h1 h2 h3
    rw [mhGo]
    split
    case isTrue heq => exact heq
    case isFalse hne =>
      split
      case _ hx =>
        exact absurd (List.getElem?_eq_none_iff.mp hx) (by omega)
      case _ j hj =>
        dsimp only
        have hol : onEnd < lateStart := Nat.lt_of_le_of_ne h1 hne
        split
        · exact ih _ _ _ _ hol (by rw [length_swapIdx]; exact h2) (by omega)
        · exact ih _ _ _ _ (by omega) (by rw [length_swapIdx]; omega) (by omega)

theorem take_of_take_succ {α : Type _} {l₁ l₂ : List α} (k : Nat)
    (h : l₁.take (k + 1) = l₂.take (k + 1)) : l₁.take k = l₂.take k := by
  have h2 := congrArg (List.take k) h
  rwa [List.take_take, List.take_take, Nat.min_eq_left (Nat.le_succ k)] at h2

/-- Once accepted, the on-time region `[0, on_time_items_end)` is never
touched again: every later swap uses indices at or beyond
`on_time_items_end`. -/
theorem mhGo_take (lt : D → D → Bool) (le : P → D → Bool) (add : P → P → P) :
    ∀ (fuel : Nat) (items : List (T × D × P)) (onEnd lateStart : Nat) (c : P),
      onEnd ≤ lateStart →
      (mhGo lt le add fuel items onEnd lateStart c).1.take onEnd =
        items.take onEnd := by
  intro fuel
  induction fuel with
  | zero => intro items onEnd lateStart c _; rfl
  | succ n ih =>
    intro items onEnd lateStart c h1
    rw [mhGo]
    split
    · rfl
    case isFalse hne =>
      split
      · rfl
      case _ j hj =>
        dsimp only
        have hol : onEnd < lateStart := Nat.lt_of_le_of_ne h1 hne
        have hmin := findMin_spec lt items onEnd lateStart j hj hol
        split
        · have h := take_of_take_succ onEnd (ih (swapIdx items
              (findMin lt items onEnd lateStart (onEnd, j.2.1, j.2.2)).1 onEnd)
              (onEnd + 1) lateStart
              (add c (findMin lt items onEnd lateStart (onEnd, j.2.1, j.2.2)).2.2)
              hol)
          rw [h, take_swapIdx_of_le _ _ _ _ hmin.1 (Nat.le_refl _)]
        · have h := ih (swapIdx items
              (findMin lt items onEnd lateStart (onEnd, j.2.1, j.2.2)).1
              (lateStart - 1)) onEnd (lateStart - 1) c (by omega)
          rw [h, take_swapIdx_of_le _ _ _ _ hmin.1 (by omega)]

theorem accumFrom_append (add : P → P → P) (c : P) (l₁ l₂ : List (T × D × P)) :
    accumFrom add c (l₁ ++ l₂) = accumFrom add (accumFrom add c l₁) l₂ := by
  induction l₁ generalizing c with
  | nil => rfl
  | cons j t ih => exact ih (add c j.2.2)

theorem feasibleFrom_append (le : P → D → Bool) (add : P → P → P) (c : P)
    (l₁ l₂ : List (T × D × P)) :
    feasibleFrom le add c (l₁ ++ l₂) =
      (feasibleFrom le add c l₁ &&
        feasibleFrom le add (accumFrom add c l₁) l₂) := by
  induction l₁ generalizing c with
  | nil => rfl
  | cons j t ih =>
    show (le (add c j.2.2) j.2.1 && feasibleFrom le add (add c j.2.2) (t ++ l₂)) = _
    rw [ih (add c j.2.2), ← Bool.and_assoc]
    rfl

/-- Swapping the candidate at `m` into slot `onEnd` extends the accepted
region by exactly that candidate. -/
theorem take_succ_swapIdx {α : Type _} (items : List α) (m onEnd : Nat)
    (x j : α) (hm : items[m]? = some x) (ho : items[onEnd]? = some j)
    (hmo : onEnd ≤ m) :
    (swapIdx items m onEnd).take (onEnd + 1) = items.take onEnd ++ [x] := by
  have honl : onEnd < items.length := (List.getElem?_eq_some_iff.mp ho).1
  have hlen : (items.take onEnd).length = onEnd := by
    simp [List.length_take]; omega
  apply List.ext_getElem?
  intro n
  by_cases hn : n < onEnd
  · rw [List.getElem?_take_of_lt (by omega),
      getElem?_swapIdx_of_ne _ _ _ _ (by omega) (by omega),
      List.getElem?_append_left (by rw [hlen]; exact hn),
      List.getElem?_take_of_lt hn]
  · by_cases hn2 : n = onEnd
    · subst hn2
      rw [List.getElem?_take_of_lt (Nat.lt_succ_self _),
        getElem?_swapIdx_snd items hm ho,
        List.getElem?_append_right (by rw [hlen]), hlen]
      simp
    · rw [List.getElem?_eq_none, List.getElem?_eq_none]
      · rw [List.length_append, hlen]; simp; omega
      · rw [List.length_take, length_swapIdx]; omega

/-- The feasibility invariant: the accepted region is on-time throughout the
run, and `completion_time` is its accumulated processing time. -/
theorem mhGo_feasible (lt : D → D → Bool) (le : P → D → Bool) (add : P → P → P)
    (dflt : P) :
    ∀ (fuel : Nat) (items : List (T × D × P)) (onEnd lateStart : Nat) (c : P),
      onEnd ≤ lateStart → lateStart ≤ items.length →
      feasibleFrom le add dflt (items.take onEnd) = true →
      accumFrom add dflt (items.take onEnd) = c →
      feasibleFrom le add dflt
        ((mhGo lt le add fuel items onEnd lateStart c).1.take
          (mhGo lt le add fuel items onEnd lateStart c).2.1) = true := by
  intro fuel
  induction fuel with
  | zero => intro items onEnd lateStart c _ _ hf _; exact hf
  | succ n ih =>
    intro items onEnd lateStart c h1 h2 hf ha
    rw [mhGo]
    split
    · exact hf
    case isFalse hne =>
      split
      · exact hf
      case _ j hj =>
        dsimp only
        have hol : onEnd < lateStart := Nat.lt_of_le_of_ne h1 hne
        obtain ⟨hm1, hm2, ⟨t, hmem⟩, hlater⟩ :=
          findMin_spec lt items onEnd lateStart j hj hol
        split
        case isTrue hle =>
          apply ih
          · exact hol
          · rw [length_swapIdx]; exact h2
          · rw [take_succ_swapIdx items _ onEnd _ j hmem hj hm1,
              feasibleFrom_append, hf, ha]
            simp [feasibleFrom, hle]
          · rw [take_succ_swapIdx items _ onEnd _ j hmem hj hm1,
              accumFrom_append, ha]
            rfl
        case isFalse hle =>
          apply ih
          · omega
          · rw [length_swapIdx]; omega
          · rw [take_swapIdx_of_le _ _ _ _ hm1 (by omega)]; exact hf
          · rw [take_swapIdx_of_le _ _ _ _ hm1 (by omega)]; exact ha

theorem mhGo_perm (lt : D → D → Bool) (le : P → D → Bool) (add : P → P → P) :
    ∀ (fuel : Nat) (items : List (T × D × P)) (onEnd lateStart : Nat) (c : P),
      List.Perm (mhGo lt le add fuel items onEnd lateStart c).1 items := by
  intro fuel
  induction fuel with
  | zero => intro items onEnd lateStart c; exact List.Perm.refl items
  | succ n ih =>
    intro items onEnd lateStart c
    rw [mhGo]
    split
    · exact List.Perm.refl items
    · split
      · exact List.Perm.refl items
      · dsimp only
        split
        · exact (ih _ _ _ _).trans (swapIdx_perm _ _ _)
        · exact (ih _ _ _ _).trans (swapIdx_perm _ _ _)

/-! ### The all-incomparable (all-NaN) run -/

theorem set_of_getElem? {α : Type _} :
    ∀ (l : List α) (i : Nat) (a : α), l[i]? = some a → l.set i a = l
  | [], i, a, h => by simp at h
  | c :: t, 0, a, h => by
    have hca : c = a := by simpa using h
    show a :: t = c :: t
    rw [hca]
  | c :: t, i + 1, a, h => by
    have := set_of_getElem? t i a (by simpa using h)
    show c :: t.set i a = c :: t
    rw [this]

theorem swapIdx_self {α : Type _} (l : List α) (i : Nat) : swapIdx l i i = l := by
  match h : l[i]? with
  | none => simp [swapIdx, h]
  | some a =>
    unfold swapIdx
    rw [h]
    show (l.set i a).set i a = l
    rw [List.set_set]
    exact set_of_getElem? l i a h

/-- The eviction swap of the all-incomparable run: the front of the region
goes to the last unresolved slot and the job there comes to the front. -/
theorem swapIdx_head_last {α : Type _} (a z : α) (mid r : List α) :
    swapIdx ((a :: (mid ++ [z])) ++ r) 0 (mid.length + 1) =
      z :: (mid ++ [a] ++ r) := by
  have h0 : ((a :: (mid ++ [z])) ++ r)[0]? = some a := by simp
  have hml : ((a :: (mid ++ [z])) ++ r)[mid.length + 1]? = some z := by
    show (a :: ((mid ++ [z]) ++ r))[mid.length + 1]? = some z
    rw [List.getElem?_cons_succ, List.getElem?_append_left (by simp),
      List.getElem?_concat_length]
  unfold swapIdx
  rw [h0, hml]
  show (((a :: (mid ++ [z])) ++ r).set 0 z).set (mid.length + 1) a = _
  show (z :: ((mid ++ [z]) ++ r)).set (mid.length + 1) a = _
  show z :: (((mid ++ [z]) ++ r).set mid.length a) = _
  rw [List.set_append_left _ _ (by simp),
    List.set_append_right _ _ (Nat.le_refl _)]
  simp

/-- With every due time of the unresolved region `l` incomparable to
everything, each iteration selects the front of the region (the scan never
updates), fails the completion check, and evicts the front into the last
unresolved slot; the region ends up rotated left by one in front of the
previously evicted suffix `r`. -/
theorem mhGo_all_incomparable (lt : D → D → Bool) (le : P → D → Bool)
    (add : P → P → P) :
    ∀ (fuel : Nat) (l r : List (T × D × P)) (c : P),
      l.length ≤ fuel →
      (∀ x, x ∈ l → ∀ y, y ∈ l → lt x.2.1 y.2.1 = false) →
      (∀ x, x ∈ l → ∀ p, le p x.2.1 = false) →
      mhGo lt le add fuel (l ++ r) 0 l.length c =
        (l.drop 1 ++ l.take 1 ++ r, 0, 0, c) := by
  intro fuel
  induction fuel with
  | zero =>
    intro l r c hlen _ _
    have hnil : l = [] := List.eq_nil_of_length_eq_zero (by omega)
    subst hnil
    rfl
  | succ n ih =>
    intro l r c hlen hlt hle
    cases l with
    | nil => rw [mhGo]; simp
    | cons a l' =>
      rw [mhGo, if_neg (by simp)]
      have hx : ((a :: l') ++ r)[0]? = some a := by simp
      rw [hx]
      dsimp only
      have hfm : findMin lt ((a :: l') ++ r) 0 ((a :: l').length)
          (0, a.2.1, a.2.2) = (0, a.2.1, a.2.2) := by
        apply findMin_const
        intro i x h1 h2 hgot
        rw [List.getElem?_append_left (by simpa using h2)] at hgot
        exact hlt x (List.getElem?_mem hgot) a (List.mem_cons_self a l')
      rw [hfm]
      dsimp only
      rw [if_neg (by simp [hle a (List.mem_cons_self a l') (add c a.2.2)])]
      rcases List.eq_nil_or_concat l' with rfl | ⟨mid, z, rfl⟩
      · have hone : (a :: ([] : List (T × D × P))).length - 1 = 0 := rfl
        rw [hone, swapIdx_self]
        have H := ih [] (a :: r) c (by simp) (by simp) (by simp)
        simpa using H
      · simp only [List.concat_eq_append] at hlt hle hlen ⊢
        have hlen2 : (a :: (mid ++ [z])).length - 1 = mid.length + 1 := by simp
        rw [hlen2, swapIdx_head_last]
        have hsub : ∀ w : T × D × P, w ∈ z :: mid → w ∈ a :: (mid ++ [z]) := by
          intro w hw
          rcases List.mem_cons.mp hw with h | h
          · subst h; exact List.mem_cons_of_mem a (by simp)
          · exact List.mem_cons_of_mem a (by simp [h])
        have H := ih (z :: mid) (a :: r) c (by simp at hlen ⊢; omega)
          (fun x hx2 y hy2 => hlt x (hsub x hx2) y (hsub y hy2))
          (fun x hx2 p => hle x (hsub x hx2) p)
        rw [show ((z :: mid).drop 1 ++ (z :: mid).take 1 ++ (a :: r)) =
          mid ++ [z] ++ (a :: r) from rfl] at H
        rw [show (a :: (mid ++ [z])).drop 1 ++ (a :: (mid ++ [z])).take 1 ++ r =
          (mid ++ [z]) ++ [a] ++ r from rfl]
        simp only [List.cons_append, List.append_assoc, List.singleton_append,
          List.length_cons] at H ⊢
        exact H

/-! ### Claim theorems -/

/-- C1, counterexample: on the input
`[(A,6,5),(B,7,1),(C,4,1),(D,6,4),(E,8,3)]` the count is indeed 3, but the
on-time region is not `(C,4,1),(A,6,5),(E,8,3)` as the claim states — its
third element is `(B,7,1)` — so the claimed conjunction is false. -/
theorem C1_cex :
    ¬ ((moore_hodgson natLt natLe Nat.add 0 exampleJobs).2 = 3 ∧
      (moore_hodgson natLt natLe Nat.add 0 exampleJobs).1.take 3 =
        [('C', 4, 1), ('A', 6, 5), ('E', 8, 3)]) := by decide

/-- C1, amended: on the library's example, `moore_hodgson` returns count 3
and rearranges the jobs to
`(C,4,1),(A,6,5),(B,7,1),(E,8,3),(D,6,4)`, whose on-time region in due-time
order is `(C,4,1),(A,6,5),(B,7,1)` — matching the doctest of `lib.rs`. -/
theorem C1_amended :
    moore_hodgson natLt natLe Nat.add 0 exampleJobs =
      ([('C', 4, 1), ('A', 6, 5), ('B', 7, 1), ('E', 8, 3), ('D', 6, 4)], 3) := by
  decide

/-- C2: for every input sequence (over any payload, due-time and
processing-time domains and any comparison/addition operations) the call
preserves the length and the multiset of job records: the output is a
rearrangement of the input with no record added, removed, duplicated or
mutated. -/
theorem C2_length_multiset (lt : D → D → Bool) (le : P → D → Bool)
    (add : P → P → P) (dflt : P) (items : List (T × D × P)) :
    (moore_hodgson lt le add dflt items).1.length = items.length ∧
    ((moore_hodgson lt le add dflt items).1 : Multiset (T × D × P)) =
      (items : Multiset (T × D × P)) := by
  have h := mhGo_perm lt le add (items.length + 1) items 0 items.length dflt
  exact ⟨h.length_eq, Multiset.coe_eq_coe.mpr h⟩

/-- C3: writing `k` for the returned count, the region `[0, k)` of the
rearranged sequence is feasible: processed left to right from
`P::default()`, every job's accumulated completion time satisfies the `le`
comparison against that job's own due time. -/
theorem C3_on_time_feasibility (lt : D → D → Bool) (le : P → D → Bool)
    (add : P → P → P) (dflt : P) (items : List (T × D × P)) :
    feasibleFrom le add dflt
      ((moore_hodgson lt le add dflt items).1.take
        (moore_hodgson lt le add dflt items).2) = true :=
  mhGo_feasible lt le add dflt (items.length + 1) items 0 items.length dflt
    (Nat.zero_le _) (Nat.le_refl _) rfl rfl

/-- C6: the returned count `k` satisfies `0 ≤ k ≤ len` (with the length
preserved), and on the empty input the function returns count 0 with the
loop never running. -/
theorem C6_count_bound (lt : D → D → Bool) (le : P → D → Bool)
    (add : P → P → P) (dflt : P) (items : List (T × D × P)) :
    (moore_hodgson lt le add dflt items).2 ≤
        (moore_hodgson lt le add dflt items).1.length ∧
      (moore_hodgson lt le add dflt items).1.length = items.length ∧
      moore_hodgson lt le add dflt ([] : List (T × D × P)) = ([], 0) := by
  have h := mhGo_bounds lt le add (items.length + 1) items 0 items.length dflt
    (Nat.zero_le _) (Nat.le_refl _)
  exact ⟨Nat.le_trans (Nat.le_trans h.2.1 h.2.2.1) (Nat.le_of_eq h.2.2.2.symm),
    h.2.2.2, rfl⟩

/-- C9: the loop terminates.  From any loop state with
`on_time_items_end ≤ late_items_start ≤ items.length`, exactly
`late_items_start - on_time_items_end` iterations run (every unit of fuel
beyond that count is unused, so the result is fuel-independent), and in the
final state `on_time_items_end = late_items_start`. -/
theorem C9_termination (lt : D → D → Bool) (le : P → D → Bool)
    (add : P → P → P) (fuel : Nat) (items : List (T × D × P))
    (onEnd lateStart : Nat) (c : P)
    (h1 : onEnd ≤ lateStart) (h2 : lateStart ≤ items.length)
    (h3 : lateStart - onEnd ≤ fuel) :
    mhGo lt le add fuel items onEnd lateStart c =
      mhGo lt le add (lateStart - onEnd) items onEnd lateStart c ∧
    (mhGo lt le add fuel items onEnd lateStart c).2.1 =
      (mhGo lt le add fuel items onEnd lateStart c).2.2.1 :=
  ⟨mhGo_fuel_of_le lt le add fuel items onEnd lateStart c h1 h3,
   mhGo_final lt le add fuel items onEnd lateStart c h1 h2 h3⟩

/-- Witness for C9 at a concrete state: the entry state of the library's
example with exactly `len = 5` units of fuel. -/
theorem C9_termination_witness :
    mhGo natLt natLe Nat.add 5 exampleJobs 0 5 0 =
        mhGo natLt natLe Nat.add (5 - 0) exampleJobs 0 5 0 ∧
      (mhGo natLt natLe Nat.add 5 exampleJobs 0 5 0).2.1 =
        (mhGo natLt natLe Nat.add 5 exampleJobs 0 5 0).2.2.1 :=
  C9_termination natLt natLe Nat.add 5 exampleJobs 0 5 0 (by decide) (by decide)
    (by decide)

/-- C4, counterexample: with an incomparable due time present, the selected
candidate need not be the first (leftmost) job that no later-scanned job
undercuts.  On `scanJobs = [(0, 5, 0), (1, NaN, 0), (2, 3, 0)]` the scan of
the whole region selects index 2, yet index 1 (the NaN due time, which no
later due time compares strictly less than) already has the claimed
property and is scanned earlier. -/
theorem C4_cex :
    (findMin fLt scanJobs 0 3 (0, Option.some 5, 0)).1 = 2 ∧
      noLaterLessB fLt scanJobs 3 1 = true ∧
      ¬(findMin fLt scanJobs 0 3 (0, Option.some 5, 0)).1 ≤ 1 := by decide

/-- C4, amended: the scan proceeds left to right over the unresolved
region with the first element as the initial provisional minimum; a
candidate replaces the current minimum only when its due time compares
strictly less, so ties and incomparable comparisons leave the minimum
unchanged.  Consequently (i) the selected index lies in the region and
carries the stored due/processing times, (ii) no later-scanned job's due
time compares strictly less than the selected job's, and (iii) if no
scanned job's due time compares strictly less than the first element's,
the first element itself is selected.  The claim's stronger "leftmost job
with property (ii)" characterisation is dropped: it fails for incomparable
due times (see the counterexample). -/
theorem C4_scan (lt : D → D → Bool) (items : List (T × D × P))
    (start stop : Nat) (j : T × D × P)
    (hj : items[start]? = some j) (hs : start < stop) :
    (start ≤ (findMin lt items start stop (start, j.2.1, j.2.2)).1 ∧
      (findMin lt items start stop (start, j.2.1, j.2.2)).1 < stop) ∧
    (∃ t, items[(findMin lt items start stop (start, j.2.1, j.2.2)).1]? =
      some (t, (findMin lt items start stop (start, j.2.1, j.2.2)).2.1,
        (findMin lt items start stop (start, j.2.1, j.2.2)).2.2)) ∧
    noLaterLessB lt items stop
      (findMin lt items start stop (start, j.2.1, j.2.2)).1 = true ∧
    ((∀ i x, start < i → i < stop → items[i]? = some x →
        lt x.2.1 j.2.1 = false) →
      findMin lt items start stop (start, j.2.1, j.2.2) =
        (start, j.2.1, j.2.2)) := by
  obtain ⟨h1, h2, ⟨t, hmem⟩, hlater⟩ := findMin_spec lt items start stop j hj hs
  refine ⟨⟨h1, h2⟩, ⟨t, hmem⟩, ?_, fun h => findMin_const lt items start stop _ h⟩
  rw [noLaterLessB, List.all_eq_true]
  intro k hk
  obtain ⟨i, hi, hksum⟩ := List.mem_range'.mp hk
  rw [hmem]
  cases hy : items[k]? with
  | none => rfl
  | some y =>
    dsimp only
    rw [hlater k y (by omega) (by omega) hy]
    rfl

/-- Witness for C4's amended theorem, instantiated on `scanJobs`. -/
theorem C4_scan_witness :
    (0 ≤ (findMin fLt scanJobs 0 3 (0, Option.some 5, 0)).1 ∧
      (findMin fLt scanJobs 0 3 (0, Option.some 5, 0)).1 < 3) ∧
    (∃ t, scanJobs[(findMin fLt scanJobs 0 3 (0, Option.some 5, 0)).1]? =
      some (t, (findMin fLt scanJobs 0 3 (0, Option.some 5, 0)).2.1,
        (findMin fLt scanJobs 0 3 (0, Option.some 5, 0)).2.2)) ∧
    noLaterLessB fLt scanJobs 3
      (findMin fLt scanJobs 0 3 (0, Option.some 5, 0)).1 = true ∧
    ((∀ i x, 0 < i → i < 3 → scanJobs[i]? = some x →
        fLt x.2.1 (Option.some 5) = false) →
      findMin fLt scanJobs 0 3 (0, Option.some 5, 0) =
        (0, Option.some 5, 0)) :=
  C4_scan fLt scanJobs 0 3 (0, Option.some 5, 0) (by decide) (by decide)

/-- C7, counterexample: on three all-NaN jobs the call returns count 0 and
the late region holds the jobs rotated left by one —
`[(2,NaN,1),(3,NaN,2),(1,NaN,3)]` — which is not the
reverse-of-original order `[(3,NaN,2),(2,NaN,1),(1,NaN,3)]` the claim
asserts. -/
theorem C7_cex :
    (moore_hodgson fLt fLe Nat.add 0 nanJobs).2 = 0 ∧
      (moore_hodgson fLt fLe Nat.add 0 nanJobs).1 =
        [(2, Option.none, 1), (3, Option.none, 2), (1, Option.none, 3)] ∧
      ¬(moore_hodgson fLt fLe Nat.add 0 nanJobs).1 = nanJobs.reverse := by
  decide

/-- C7, amended: when every due time of the input is incomparable to every
value it is compared against, the call returns count 0 and every job ends
up in the late region; the late region holds the input rotated left by one
position (the first job is evicted first and lands last; each subsequent
iteration evicts the job just swapped to the front of the unresolved
region, so the remaining jobs keep their original relative order) — not in
reverse-of-original order, which fails for length ≥ 3. -/
theorem C7_all_incomparable (lt : D → D → Bool) (le : P → D → Bool)
    (add : P → P → P) (dflt : P) (items : List (T × D × P))
    (hlt : ∀ x, x ∈ items → ∀ y, y ∈ items → lt x.2.1 y.2.1 = false)
    (hle : ∀ x, x ∈ items → ∀ p, le p x.2.1 = false) :
    moore_hodgson lt le add dflt items =
      (items.drop 1 ++ items.take 1, 0) := by
  have H := mhGo_all_incomparable lt le add (items.length + 1) items [] dflt
    (by omega) hlt hle
  simp only [List.append_nil] at H
  show ((mhGo lt le add (items.length + 1) items 0 items.length dflt).1,
    (mhGo lt le add (items.length + 1) items 0 items.length dflt).2.1) = _
  rw [H]

/-- Witness for C7's amended theorem on the three all-NaN jobs. -/
theorem C7_all_incomparable_witness :
    moore_hodgson fLt fLe Nat.add 0 nanJobs =
      (nanJobs.drop 1 ++ nanJobs.take 1, 0) :=
  C7_all_incomparable fLt fLe Nat.add 0 nanJobs (by decide)
    (by
      intro x hx p
      have hdue : x.2.1 = Option.none := by
        rcases List.mem_cons.mp hx with h | hx2
        · rw [h]
        rcases List.mem_cons.mp hx2 with h | hx3
        · rw [h]
        rcases List.mem_cons.mp hx3 with h | hx4
        · rw [h]
        · simp at hx4
      rw [hdue]
      rfl)

/-- C5: in a loop iteration on a non-empty unresolved region with candidate
`(m, d, p) = findMin …` and candidate end time `add c p`: when
`le (add c p) d` is `true` the loop continues with the candidate swapped
into `prefix_end`, `prefix_end + 1`, and the clock advanced to the end
time; when it is `false` (including every comparison against an
incomparable due time) the loop continues with `suffix_start` decremented
and the candidate swapped into the new `suffix_start`, the clock
unchanged.  Moreover the accepted region `[0, prefix_end)` is never
re-scanned for a larger-processing-time victim: it stays untouched for the
whole remainder of the run. -/
theorem C5_branches (lt : D → D → Bool) (le : P → D → Bool) (add : P → P → P)
    (fuel : Nat) (items : List (T × D × P)) (onEnd lateStart : Nat) (c : P)
    (j : T × D × P) (hj : items[onEnd]? = some j) (hol : onEnd < lateStart) :
    (le (add c (findMin lt items onEnd lateStart (onEnd, j.2.1, j.2.2)).2.2)
        (findMin lt items onEnd lateStart (onEnd, j.2.1, j.2.2)).2.1 = true →
      mhGo lt le add (fuel + 1) items onEnd lateStart c =
        mhGo lt le add fuel
          (swapIdx items
            (findMin lt items onEnd lateStart (onEnd, j.2.1, j.2.2)).1 onEnd)
          (onEnd + 1) lateStart
          (add c (findMin lt items onEnd lateStart (onEnd, j.2.1, j.2.2)).2.2)) ∧
    (le (add c (findMin lt items onEnd lateStart (onEnd, j.2.1, j.2.2)).2.2)
        (findMin lt items onEnd lateStart (onEnd, j.2.1, j.2.2)).2.1 = false →
      mhGo lt le add (fuel + 1) items onEnd lateStart c =
        mhGo lt le add fuel
          (swapIdx items
            (findMin lt items onEnd lateStart (onEnd, j.2.1, j.2.2)).1
            (lateStart - 1))
          onEnd (lateStart - 1) c) ∧
    (mhGo lt le add (fuel + 1) items onEnd lateStart c).1.take onEnd =
      items.take onEnd := by
  refine ⟨?_, ?_,
    mhGo_take lt le add (fuel + 1) items onEnd lateStart c (Nat.le_of_lt hol)⟩
  · intro hyes
    rw [mhGo, if_neg (Nat.ne_of_lt hol), hj]
    dsimp only
    rw [if_pos hyes]
  · intro hno
    rw [mhGo, if_neg (Nat.ne_of_lt hol), hj]
    dsimp only
    rw [if_neg (by simp [hno])]

/-- Witness for C5 on a singleton job list. -/
theorem C5_branches_witness :
    (natLe (Nat.add 0 (findMin natLt [('X', 5, 3)] 0 1 (0, 5, 3)).2.2)
        (findMin natLt [('X', 5, 3)] 0 1 (0, 5, 3)).2.1 = true →
      mhGo natLt natLe Nat.add (0 + 1) [('X', 5, 3)] 0 1 0 =
        mhGo natLt natLe Nat.add 0
          (swapIdx [('X', 5, 3)] (findMin natLt [('X', 5, 3)] 0 1 (0, 5, 3)).1 0)
          (0 + 1) 1
          (Nat.add 0 (findMin natLt [('X', 5, 3)] 0 1 (0, 5, 3)).2.2)) ∧
    (natLe (Nat.add 0 (findMin natLt [('X', 5, 3)] 0 1 (0, 5, 3)).2.2)
        (findMin natLt [('X', 5, 3)] 0 1 (0, 5, 3)).2.1 = false →
      mhGo natLt natLe Nat.add (0 + 1) [('X', 5, 3)] 0 1 0 =
        mhGo natLt natLe Nat.add 0
          (swapIdx [('X', 5, 3)] (findMin natLt [('X', 5, 3)] 0 1 (0, 5, 3)).1
            (1 - 1))
          0 (1 - 1) 0) ∧
    (mhGo natLt natLe Nat.add (0 + 1) [('X', 5, 3)] 0 1 0).1.take 0 =
      [('X', 5, 3)].take 0 :=
  C5_branches natLt natLe Nat.add 0 [('X', 5, 3)] 0 1 0 ('X', 5, 3)
    (by decide) (by decide)

/-- Sorted feasible run: when the whole remaining region is already in
non-decreasing due-time order and feasible from the current clock, every
iteration selects the job at `prefix_end` itself (the scan never updates),
accepts it with a trivial self-swap, and the items never move. -/
theorem mhGo_sorted (lt : D → D → Bool) (le : P → D → Bool) (add : P → P → P) :
    ∀ (fuel : Nat) (items : List (T × D × P)) (onEnd : Nat) (c : P),
      items.length - onEnd ≤ fuel → onEnd ≤ items.length →
      (∀ i j x y, onEnd ≤ i → i < j → j < items.length →
        items[i]? = some x → items[j]? = some y → lt y.2.1 x.2.1 = false) →
      feasibleFrom le add c (items.drop onEnd) = true →
      (mhGo lt le add fuel items onEnd items.length c).1 = items ∧
      (mhGo lt le add fuel items onEnd items.length c).2.1 = items.length := by
  intro fuel
  induction fuel with
  | zero =>
    intro items onEnd c h1 h2 _ _
    refine ⟨rfl, ?_⟩
    show onEnd = items.length
    omega
  | succ n ih =>
    intro items onEnd c h1 h2 hsort hfeas
    rw [mhGo]
    by_cases heq : onEnd = items.length
    · rw [if_pos heq]; exact ⟨rfl, heq⟩
    rw [if_neg heq]
    have hol : onEnd < items.length := by omega
    cases hj : items[onEnd]? with
    | none => exact absurd (List.getElem?_eq_none_iff.mp hj) (by omega)
    | some j =>
      dsimp only
      have hfm : findMin lt items onEnd items.length (onEnd, j.2.1, j.2.2) =
          (onEnd, j.2.1, j.2.2) := by
        apply findMin_const
        intro i x hi1 hi2 hx
        exact hsort onEnd i j x (Nat.le_refl _) hi1 hi2 hj hx
      rw [hfm]
      dsimp only
      have hdrop : items.drop onEnd = j :: items.drop (onEnd + 1) := by
        rw [List.drop_eq_getElem_cons hol]
        congr 1
        have := (List.getElem?_eq_some_iff.mp hj).2
        rw [← this]
      rw [hdrop] at hfeas
      have hfeas2 := (Bool.and_eq_true _ _).mp hfeas
      rw [if_pos hfeas2.1, swapIdx_self]
      have := ih items (onEnd + 1) (add c j.2.2) (by omega) (by omega)
        (fun i j2 x y hi hij hjl hx hy =>
          hsort i j2 x y (by omega) hij hjl hx hy)
        hfeas2.2
      exact this

/-- C8: on an input already in non-decreasing due-time order (no later due
time compares strictly below an earlier one) that is on-time-feasible left
to right from `P::default()`, the call returns a count equal to the input
length. -/
theorem C8_sorted_feasible (lt : D → D → Bool) (le : P → D → Bool)
    (add : P → P → P) (dflt : P) (items : List (T × D × P))
    (hsort : (items.map fun x => x.2.1).Pairwise fun a b => lt b a = false)
    (hfeas : feasibleFrom le add dflt items = true) :
    (moore_hodgson lt le add dflt items).2 = items.length := by
  have hidx : ∀ i j x y, 0 ≤ i → i < j → j < items.length →
      items[i]? = some x → items[j]? = some y → lt y.2.1 x.2.1 = false := by
    intro i j x y _ hij hjl hx hy
    have hil : i < items.length := by omega
    have h := List.pairwise_iff_getElem.mp hsort i j
      (by simpa using hil) (by simpa using hjl) hij
    rw [List.getElem_map, List.getElem_map] at h
    obtain ⟨_, hx2⟩ := List.getElem?_eq_some_iff.mp hx
    obtain ⟨_, hy2⟩ := List.getElem?_eq_some_iff.mp hy
    rw [hx2, hy2] at h
    exact h
  exact (mhGo_sorted lt le add (items.length + 1) items 0 dflt (by omega)
    (Nat.zero_le _) hidx hfeas).2

/-- Witness for C8 on a sorted, feasible three-job input. -/
theorem C8_sorted_feasible_witness :
    (moore_hodgson natLt natLe Nat.add 0
      [(1, 2, 1), (2, 5, 2), (3, 9, 3)]).2 =
      ([(1, 2, 1), (2, 5, 2), (3, 9, 3)] : List (Nat × Nat × Nat)).length :=
  C8_sorted_feasible natLt natLe Nat.add 0 [(1, 2, 1), (2, 5, 2), (3, 9, 3)]
    (by decide) (by decide)

/-- Under a linear order on due times (`lt a b = decide (a < b)`) the scan
computes a genuine minimum: the final accumulator's due time is at most
every scanned due time. -/
theorem foldMin_min {D : Type _} [LinearOrder D] {T P : Type _}
    (items : List (T × D × P)) (start : Nat) :
    ∀ (n s : Nat) (acc : Nat × D × P),
      (∀ i x, start ≤ i → i < s → items[i]? = some x → acc.2.1 ≤ x.2.1) →
      ∀ i x, start ≤ i → i < s + n → items[i]? = some x →
        ((List.range' s n).foldl
          (scanStep (fun a b => decide (a < b)) items) acc).2.1 ≤ x.2.1 := by
  intro n
  induction n with
  | zero => intro s acc h i x h1 h2 hx; exact h i x h1 (by omega) hx
  | succ n ih =>
    intro s acc h
    rw [List.range'_succ, List.foldl_cons]
    have hstep : ∀ i x, start ≤ i → i < s + 1 → items[i]? = some x →
        (scanStep (fun a b => decide (a < b)) items acc s).2.1 ≤ x.2.1 := by
      intro i x h1 h2 hx
      unfold scanStep
      cases hy : items[s]? with
      | none =>
        rcases Nat.lt_succ_iff_lt_or_eq.mp h2 with h3 | h3
        · exact h i x h1 h3 hx
        · subst h3; rw [hy] at hx; cases hx
      | some y =>
        dsimp only
        by_cases hlt2 : decide (y.2.1 < acc.2.1) = true
        · rw [if_pos hlt2]
          have hyacc : y.2.1 ≤ acc.2.1 := le_of_lt (of_decide_eq_true hlt2)
          rcases Nat.lt_succ_iff_lt_or_eq.mp h2 with h3 | h3
          · exact le_trans hyacc (h i x h1 h3 hx)
          · subst h3; rw [hy] at hx; cases hx; exact le_refl _
        · rw [if_neg hlt2]
          rcases Nat.lt_succ_iff_lt_or_eq.mp h2 with h3 | h3
          · exact h i x h1 h3 hx
          · subst h3; rw [hy] at hx; cases hx
            exact le_of_not_lt fun hc => hlt2 (decide_eq_true hc)
    intro i x h1 h2 hx
    exact ih (s + 1) _ hstep i x h1 (by omega) hx

theorem findMin_min {D : Type _} [LinearOrder D] {T P : Type _}
    (items : List (T × D × P)) (start stop : Nat) (j : T × D × P)
    (hj : items[start]? = some j) :
    ∀ i x, start ≤ i → i < stop → items[i]? = some x →
      (findMin (fun a b => decide (a < b)) items start stop
        (start, j.2.1, j.2.2)).2.1 ≤ x.2.1 := by
  intro i x h1 h2 hx
  have hinit : ∀ i2 y, start ≤ i2 → i2 < start + 1 → items[i2]? = some y →
      ((start, j.2.1, j.2.2) : Nat × D × P).2.1 ≤ y.2.1 := by
    intro i2 y ha hb2 hy
    have hi2 : i2 = start := by omega
    subst hi2
    rw [hj] at hy; cases hy; exact le_refl _
  exact foldMin_min items start (stop - (start + 1)) (start + 1)
    (start, j.2.1, j.2.2) hinit i x h1 (by omega) hx

/-- Invariant for the sorted-output property under a linear due-time
order: the accepted dues are pairwise non-decreasing, and every accepted
due is at most every due of the unresolved region. -/
theorem mhGo_sorted_due {D : Type _} [LinearOrder D] {T P : Type _}
    (le : P → D → Bool) (add : P → P → P) :
    ∀ (fuel : Nat) (items : List (T × D × P)) (onEnd lateStart : Nat) (c : P),
      onEnd ≤ lateStart → lateStart ≤ items.length →
      (((items.take onEnd).map fun x => x.2.1).Pairwise (· ≤ ·)) →
      (∀ p, p ∈ (items.take onEnd).map (fun x => x.2.1) →
        ∀ i x, onEnd ≤ i → i < lateStart → items[i]? = some x → p ≤ x.2.1) →
      (((mhGo (fun a b => decide (a < b)) le add fuel items onEnd
          lateStart c).1.take
        (mhGo (fun a b => decide (a < b)) le add fuel items onEnd
          lateStart c).2.1).map fun x => x.2.1).Pairwise (· ≤ ·) := by
  intro fuel
  induction fuel with
  | zero => intro items onEnd lateStart c _ _ hp _; exact hp
  | succ n ih =>
    intro items onEnd lateStart c h1 h2 hp hb
    rw [mhGo]
    split
    · exact hp
    case isFalse hne =>
      split
      · exact hp
      case _ j hj =>
        dsimp only
        have hol : onEnd < lateStart := Nat.lt_of_le_of_ne h1 hne
        obtain ⟨hm1, hm2, ⟨t, hmem⟩, _⟩ :=
          findMin_spec (fun a b => decide (a < b)) items onEnd lateStart j hj hol
        have hmin := findMin_min items onEnd lateStart j hj
        split
        case isTrue hacc =>
          apply ih
          · exact hol
          · rw [length_swapIdx]; exact h2
          · rw [take_succ_swapIdx items _ onEnd _ j hmem hj hm1,
              List.map_append, List.pairwise_append]
            refine ⟨hp, List.pairwise_singleton _ _, ?_⟩
            intro p hpmem q hqmem
            have hq : q = (findMin (fun a b => decide (a < b)) items onEnd
                lateStart (onEnd, j.2.1, j.2.2)).2.1 := by
              simpa using hqmem
            subst hq
            exact hb p hpmem _ _ hm1 hm2 hmem
          · intro p hpmem i x hi1 hi2 hx
            rw [take_succ_swapIdx items _ onEnd _ j hmem hj hm1,
              List.map_append] at hpmem
            rcases List.mem_append.mp hpmem with hp2 | hp2
            · by_cases him : i = (findMin (fun a b => decide (a < b)) items
                  onEnd lateStart (onEnd, j.2.1, j.2.2)).1
              · subst him
                rw [getElem?_swapIdx_fst items hmem hj] at hx
                cases hx
                exact hb p hp2 onEnd j (Nat.le_refl _) hol hj
              · rw [getElem?_swapIdx_of_ne _ _ _ _ him (by omega)] at hx
                exact hb p hp2 i x (by omega) hi2 hx
            · have hp3 : p = (findMin (fun a b => decide (a < b)) items onEnd
                  lateStart (onEnd, j.2.1, j.2.2)).2.1 := by
                simpa using hp2
              subst hp3
              by_cases him : i = (findMin (fun a b => decide (a < b)) items
                  onEnd lateStart (onEnd, j.2.1, j.2.2)).1
              · subst him
                rw [getElem?_swapIdx_fst items hmem hj] at hx
                cases hx
                exact hmin onEnd j (Nat.le_refl _) hol hj
              · rw [getElem?_swapIdx_of_ne _ _ _ _ him (by omega)] at hx
                exact hmin i x (by omega) hi2 hx
        case isFalse hrej =>
          apply ih
          · omega
          · rw [length_swapIdx]; omega
          · rw [take_swapIdx_of_le _ _ _ _ hm1 (by omega)]; exact hp
          · intro p hpmem i x hi1 hi2 hx
            rw [take_swapIdx_of_le _ _ _ _ hm1 (by omega)] at hpmem
            by_cases him : i = (findMin (fun a b => decide (a < b)) items
                onEnd lateStart (onEnd, j.2.1, j.2.2)).1
            · subst him
              cases hz : items[lateStart - 1]? with
              | none =>
                exact absurd (List.getElem?_eq_none_iff.mp hz) (by omega)
              | some z =>
                rw [getElem?_swapIdx_fst items hmem hz] at hx
                have hzx : z = x := by injection hx
                subst hzx
                exact hb p hpmem (lateStart - 1) z (by omega) (by omega) hz
            · rw [getElem?_swapIdx_of_ne _ _ _ _ him (by omega)] at hx
              exact hb p hpmem i x hi1 (by omega) hx

/-- C10: when the due-time domain is totally ordered (a linear order, with
the strict comparison decidable), the due times of the returned on-time
region `[0, k)` are in non-decreasing order. -/
theorem C10_sorted_output {D : Type _} [LinearOrder D] {T P : Type _}
    (le : P → D → Bool) (add : P → P → P) (dflt : P)
    (items : List (T × D × P)) :
    (((moore_hodgson (fun a b => decide (a < b)) le add dflt items).1.take
      (moore_hodgson (fun a b => decide (a < b)) le add dflt items).2).map
        fun x => x.2.1).Pairwise (· ≤ ·) :=
  mhGo_sorted_due le add (items.length + 1) items 0 items.length dflt
    (Nat.zero_le _) (Nat.le_refl _) (by simp) (by simp)

end MooreHodgson
